import Mathlib

/-!
Shallow embedding of `src/parse/lexer.rs` from julian-klode/clap.

Modelling conventions:
* OS-level byte strings (`OsStr`, `OsString`, `RawOsStr`) are `List Nat`
  (each entry one byte).
* Rust `str` / `char` values are lists of Unicode scalar values (`List Nat`
  of codepoints satisfying `isUSV`).
* Machine integers are `Nat` / `Int` with explicit saturation and wrapping
  (`usize` saturating add, `i64` saturating add, `usize as i64` wrapping cast).
* Fallible / panicking steps are `Option`-valued: `none` models a panic.
-/

namespace Clap

/-- Byte strings: the model of `OsStr` / `RawOsStr` content. -/
abbrev Bytes := List Nat

/-- Unicode scalar value: what a Rust `char` may hold. -/
def isUSV (c : Nat) : Prop := c < 0x110000 ∧ (c < 0xD800 ∨ 0xDFFF < c)

instance (c : Nat) : Decidable (isUSV c) := by
  unfold isUSV; infer_instance

/-- UTF-8 encoding of a single Unicode scalar value (1 to 4 bytes). -/
def encodeChar (c : Nat) : List Nat :=
  if c < 0x80 then [c]
  else if c < 0x800 then [0xC0 + c / 0x40, 0x80 + c % 0x40]
  else if c < 0x10000 then
    [0xE0 + c / 0x1000, 0x80 + c / 0x40 % 0x40, 0x80 + c % 0x40]
  else
    [0xF0 + c / 0x40000, 0x80 + c / 0x1000 % 0x40, 0x80 + c / 0x40 % 0x40,
      0x80 + c % 0x40]

/-- UTF-8 encoding of a string (list of scalar values). -/
def utf8Encode : List Nat → Bytes
  | [] => []
  | c :: s => encodeChar c ++ utf8Encode s

/-- Continuation of a two-byte UTF-8 sequence with leading byte `b`. -/
def decode2 (b : Nat) : Bytes → Option (Nat × Bytes)
  | b1 :: r =>
    if 0x80 ≤ b1 ∧ b1 < 0xC0 then
      some ((b - 0xC0) * 0x40 + (b1 - 0x80), r)
    else none
  | [] => none

/-- Continuation of a three-byte UTF-8 sequence with leading byte `b`;
rejects overlong forms and surrogate codepoints. -/
def decode3 (b : Nat) : Bytes → Option (Nat × Bytes)
  | b1 :: b2 :: r =>
    if (0x80 ≤ b1 ∧ b1 < 0xC0) ∧ (0x80 ≤ b2 ∧ b2 < 0xC0) then
      if (b - 0xE0) * 0x1000 + (b1 - 0x80) * 0x40 + (b2 - 0x80) < 0x800 ∨
          (0xD800 ≤ (b - 0xE0) * 0x1000 + (b1 - 0x80) * 0x40 + (b2 - 0x80) ∧
            (b - 0xE0) * 0x1000 + (b1 - 0x80) * 0x40 + (b2 - 0x80) < 0xE000) then
        none
      else some ((b - 0xE0) * 0x1000 + (b1 - 0x80) * 0x40 + (b2 - 0x80), r)
    else none
  | _ => none

/-- Continuation of a four-byte UTF-8 sequence with leading byte `b`;
rejects overlong forms and values past the last Unicode codepoint. -/
def decode4 (b : Nat) : Bytes → Option (Nat × Bytes)
  | b1 :: b2 :: b3 :: r =>
    if (0x80 ≤ b1 ∧ b1 < 0xC0) ∧ (0x80 ≤ b2 ∧ b2 < 0xC0) ∧
        (0x80 ≤ b3 ∧ b3 < 0xC0) then
      if (b - 0xF0) * 0x40000 + (b1 - 0x80) * 0x1000 + (b2 - 0x80) * 0x40 +
          (b3 - 0x80) < 0x10000 ∨
          0x110000 ≤ (b - 0xF0) * 0x40000 + (b1 - 0x80) * 0x1000 +
            (b2 - 0x80) * 0x40 + (b3 - 0x80) then
        none
      else
        some ((b - 0xF0) * 0x40000 + (b1 - 0x80) * 0x1000 + (b2 - 0x80) * 0x40 +
          (b3 - 0x80), r)
    else none
  | _ => none

/-- Decode one UTF-8 character from the front of a byte string, rejecting
overlong forms, surrogates and out-of-range values exactly as Rust's
`str::from_utf8` does; returns the scalar value and the remaining bytes. -/
def decodeChar : Bytes → Option (Nat × Bytes)
  | [] => none
  | b :: rest =>
    if b < 0x80 then some (b, rest)
    else if b < 0xC2 then none
    else if b < 0xE0 then decode2 b rest
    else if b < 0xF0 then decode3 b rest
    else if b < 0xF5 then decode4 b rest
    else none

theorem decodeChar_encodeChar (c : Nat) (h : isUSV c) (r : Bytes) :
    decodeChar (encodeChar c ++ r) = some (c, r) := by
  obtain ⟨h1, h2⟩ := h
  by_cases ha : c < 0x80
  · simp [encodeChar, decodeChar, ha]
  · by_cases hb : c < 0x800
    · rw [encodeChar, if_neg ha, if_pos hb]
      simp only [List.cons_append, List.nil_append, decodeChar]
      rw [if_neg (by omega), if_neg (by omega), if_pos (by omega)]
      rw [decode2, if_pos (by omega)]
      have : (0xC0 + c / 0x40 - 0xC0) * 0x40 + (0x80 + c % 0x40 - 0x80) = c := by
        omega
      rw [this]
    · by_cases hc : c < 0x10000
      · rw [encodeChar, if_neg ha, if_neg hb, if_pos hc]
        simp only [List.cons_append, List.nil_append, decodeChar]
        rw [if_neg (by omega), if_neg (by omega), if_neg (by omega),
          if_pos (by omega)]
        rw [decode3, if_pos (by omega), if_neg (by omega)]
        have : (0xE0 + c / 0x1000 - 0xE0) * 0x1000 +
            (0x80 + c / 0x40 % 0x40 - 0x80) * 0x40 + (0x80 + c % 0x40 - 0x80)
            = c := by omega
        rw [this]
      · rw [encodeChar, if_neg ha, if_neg hb, if_neg hc]
        simp only [List.cons_append, List.nil_append, decodeChar]
        rw [if_neg (by omega), if_neg (by omega), if_neg (by omega),
          if_neg (by omega), if_pos (by omega)]
        rw [decode4, if_pos (by omega), if_neg (by omega)]
        have : (0xF0 + c / 0x40000 - 0xF0) * 0x40000 +
            (0x80 + c / 0x1000 % 0x40 - 0x80) * 0x1000 +
            (0x80 + c / 0x40 % 0x40 - 0x80) * 0x40 + (0x80 + c % 0x40 - 0x80)
            = c := by omega
        rw [this]

theorem decodeChar_sound (l : Bytes) (c : Nat) (r : Bytes)
    (h : decodeChar l = some (c, r)) :
    encodeChar c ++ r = l ∧ isUSV c ∧ r.length < l.length := by
  cases l with
  | nil => simp [decodeChar] at h
  | cons b rest =>
    rw [decodeChar] at h
    by_cases h1 : b < 0x80
    · rw [if_pos h1] at h
      simp only [Option.some.injEq, Prod.mk.injEq] at h
      obtain ⟨rfl, rfl⟩ := h
      refine ⟨?_, ⟨by omega, by omega⟩, by simp only [List.length_cons]; omega⟩
      rw [encodeChar, if_pos h1]; simp
    · rw [if_neg h1] at h
      by_cases h2 : b < 0xC2
      · rw [if_pos h2] at h; cases h
      · rw [if_neg h2] at h
        by_cases h3 : b < 0xE0
        · rw [if_pos h3] at h
          cases rest with
          | nil => simp [decode2] at h
          | cons b1 r1 =>
            rw [decode2] at h
            by_cases hc1 : 0x80 ≤ b1 ∧ b1 < 0xC0
            · rw [if_pos hc1] at h
              simp only [Option.some.injEq, Prod.mk.injEq] at h
              obtain ⟨rfl, rfl⟩ := h
              refine ⟨?_, ⟨by omega, by omega⟩, by simp only [List.length_cons]; omega⟩
              rw [encodeChar, if_neg (by omega), if_pos (by omega)]
              have e1 : 0xC0 + ((b - 0xC0) * 0x40 + (b1 - 0x80)) / 0x40 = b := by
                omega
              have e2 : 0x80 + ((b - 0xC0) * 0x40 + (b1 - 0x80)) % 0x40 = b1 := by
                omega
              rw [e1, e2]; simp
            · rw [if_neg hc1] at h; cases h
        · rw [if_neg h3] at h
          by_cases h4 : b < 0xF0
          · rw [if_pos h4] at h
            match rest with
            | [] => simp [decode3] at h
            | [b1] => simp [decode3] at h
            | b1 :: b2 :: r1 =>
              rw [decode3] at h
              by_cases hc1 : (0x80 ≤ b1 ∧ b1 < 0xC0) ∧ (0x80 ≤ b2 ∧ b2 < 0xC0)
              · rw [if_pos hc1] at h
                by_cases hv : (b - 0xE0) * 0x1000 + (b1 - 0x80) * 0x40 +
                    (b2 - 0x80) < 0x800 ∨
                    (0xD800 ≤ (b - 0xE0) * 0x1000 + (b1 - 0x80) * 0x40 +
                      (b2 - 0x80) ∧
                      (b - 0xE0) * 0x1000 + (b1 - 0x80) * 0x40 + (b2 - 0x80)
                        < 0xE000)
                · rw [if_pos hv] at h; cases h
                · rw [if_neg hv] at h
                  simp only [Option.some.injEq, Prod.mk.injEq] at h
                  obtain ⟨rfl, rfl⟩ := h
                  refine ⟨?_, ⟨by omega, by omega⟩, by simp only [List.length_cons]; omega⟩
                  rw [encodeChar, if_neg (by omega), if_neg (by omega),
                    if_pos (by omega)]
                  have e1 : 0xE0 + ((b - 0xE0) * 0x1000 + (b1 - 0x80) * 0x40 +
                      (b2 - 0x80)) / 0x1000 = b := by omega
                  have e2 : 0x80 + ((b - 0xE0) * 0x1000 + (b1 - 0x80) * 0x40 +
                      (b2 - 0x80)) / 0x40 % 0x40 = b1 := by omega
                  have e3 : 0x80 + ((b - 0xE0) * 0x1000 + (b1 - 0x80) * 0x40 +
                      (b2 - 0x80)) % 0x40 = b2 := by omega
                  rw [e1, e2, e3]; simp
              · rw [if_neg hc1] at h; cases h
          · rw [if_neg h4] at h
            by_cases h5 : b < 0xF5
            · rw [if_pos h5] at h
              match rest with
              | [] => simp [decode4] at h
              | [b1] => simp [decode4] at h
              | [b1, b2] => simp [decode4] at h
              | b1 :: b2 :: b3 :: r1 =>
                rw [decode4] at h
                by_cases hc1 : (0x80 ≤ b1 ∧ b1 < 0xC0) ∧
                    (0x80 ≤ b2 ∧ b2 < 0xC0) ∧ (0x80 ≤ b3 ∧ b3 < 0xC0)
                · rw [if_pos hc1] at h
                  by_cases hv : (b - 0xF0) * 0x40000 + (b1 - 0x80) * 0x1000 +
                      (b2 - 0x80) * 0x40 + (b3 - 0x80) < 0x10000 ∨
                      0x110000 ≤ (b - 0xF0) * 0x40000 + (b1 - 0x80) * 0x1000 +
                        (b2 - 0x80) * 0x40 + (b3 - 0x80)
                  · rw [if_pos hv] at h; cases h
                  · rw [if_neg hv] at h
                    simp only [Option.some.injEq, Prod.mk.injEq] at h
                    obtain ⟨rfl, rfl⟩ := h
                    refine ⟨?_, ⟨by omega, by omega⟩, by simp only [List.length_cons]; omega⟩
                    rw [encodeChar, if_neg (by omega), if_neg (by omega),
                      if_neg (by omega)]
                    have e1 : 0xF0 + ((b - 0xF0) * 0x40000 +
                        (b1 - 0x80) * 0x1000 + (b2 - 0x80) * 0x40 +
                        (b3 - 0x80)) / 0x40000 = b := by omega
                    have e2 : 0x80 + ((b - 0xF0) * 0x40000 +
                        (b1 - 0x80) * 0x1000 + (b2 - 0x80) * 0x40 +
                        (b3 - 0x80)) / 0x1000 % 0x40 = b1 := by omega
                    have e3 : 0x80 + ((b - 0xF0) * 0x40000 +
                        (b1 - 0x80) * 0x1000 + (b2 - 0x80) * 0x40 +
                        (b3 - 0x80)) / 0x40 % 0x40 = b2 := by omega
                    have e4 : 0x80 + ((b - 0xF0) * 0x40000 +
                        (b1 - 0x80) * 0x1000 + (b2 - 0x80) * 0x40 +
                        (b3 - 0x80)) % 0x40 = b3 := by omega
                    rw [e1, e2, e3, e4]; simp
                · rw [if_neg hc1] at h; cases h
            · rw [if_neg h5] at h; cases h

/-- Greedy UTF-8 decoding with explicit fuel (the fuel only serves
termination; `splitUtf8` instantiates it with the byte length, which always
suffices): returns the decoded valid-text prefix and the raw remainder at the
first invalid boundary. -/
def decodeAux : Nat → Bytes → List Nat × Bytes
  | 0, b => ([], b)
  | fuel + 1, b =>
    match decodeChar b with
    | none => ([], b)
    | some (c, r) =>
      let p := decodeAux fuel r
      (c :: p.1, p.2)

/-- Split a byte string as the longest valid-text prefix (decoded) plus the
raw remainder starting at the first invalid encoding boundary. -/
def splitUtf8 (b : Bytes) : List Nat × Bytes := decodeAux b.length b

theorem decodeChar_nil : decodeChar [] = none := rfl

theorem decodeAux_fuel (fuel : Nat) : ∀ (fuel' : Nat) (b : Bytes),
    b.length ≤ fuel → b.length ≤ fuel' → decodeAux fuel b = decodeAux fuel' b := by
  induction fuel with
  | zero =>
    intro fuel' b hb hb'
    have : b = [] := by
      cases b with
      | nil => rfl
      | cons x xs => simp at hb
    subst this
    cases fuel' with
    | zero => rfl
    | succ f => simp [decodeAux, decodeChar_nil]
  | succ n ih =>
    intro fuel' b hb hb'
    cases hd : decodeChar b with
    | none =>
      cases fuel' with
      | zero =>
        have : b = [] := by
          cases b with
          | nil => rfl
          | cons x xs => simp at hb'
        subst this; simp [decodeAux, decodeChar_nil]
      | succ f => simp [decodeAux, hd]
    | some cr =>
      obtain ⟨c, r⟩ := cr
      obtain ⟨henc, _, hlen⟩ := decodeChar_sound b c r hd
      have hbne : b.length ≥ 1 := by
        cases b with
        | nil => rw [decodeChar_nil] at hd; cases hd
        | cons x xs => simp
      cases fuel' with
      | zero => omega
      | succ f =>
        simp only [decodeAux, hd]
        have := ih f r (by omega) (by omega)
        rw [this]

theorem splitUtf8_cons_valid (b : Bytes) (c : Nat) (r : Bytes)
    (h : decodeChar b = some (c, r)) :
    splitUtf8 b = (c :: (splitUtf8 r).1, (splitUtf8 r).2) := by
  obtain ⟨henc, _, hlen⟩ := decodeChar_sound b c r h
  cases b with
  | nil => rw [decodeChar_nil] at h; cases h
  | cons x xs =>
    show decodeAux (xs.length + 1) (x :: xs) = _
    simp only [decodeAux, h]
    rw [decodeAux_fuel xs.length r.length r (by simp at hlen; omega) le_rfl]
    rfl

theorem splitUtf8_stop (b : Bytes) (h : decodeChar b = none) :
    splitUtf8 b = ([], b) := by
  cases b with
  | nil => rfl
  | cons x xs =>
    show decodeAux (xs.length + 1) (x :: xs) = _
    simp [decodeAux, h]

theorem splitUtf8_append (s : List Nat) (r : Bytes)
    (hs : ∀ c ∈ s, isUSV c) (hr : decodeChar r = none) :
    splitUtf8 (utf8Encode s ++ r) = (s, r) := by
  induction s with
  | nil =>
    simp only [utf8Encode, List.nil_append]
    exact splitUtf8_stop r hr
  | cons c s' ih =>
    have hc : isUSV c := hs c (by simp)
    have hs' : ∀ x ∈ s', isUSV x := fun x hx => hs x (by simp [hx])
    have hstep : decodeChar (utf8Encode (c :: s') ++ r) =
        some (c, utf8Encode s' ++ r) := by
      rw [show utf8Encode (c :: s') ++ r = encodeChar c ++ (utf8Encode s' ++ r) by
        simp [utf8Encode]]
      exact decodeChar_encodeChar c hc _
    rw [splitUtf8_cons_valid _ _ _ hstep, ih hs']

theorem splitUtf8_sound (b : Bytes) :
    utf8Encode (splitUtf8 b).1 ++ (splitUtf8 b).2 = b ∧
    (∀ c ∈ (splitUtf8 b).1, isUSV c) ∧ decodeChar (splitUtf8 b).2 = none := by
  have main : ∀ n (b : Bytes), b.length ≤ n →
      utf8Encode (splitUtf8 b).1 ++ (splitUtf8 b).2 = b ∧
      (∀ c ∈ (splitUtf8 b).1, isUSV c) ∧ decodeChar (splitUtf8 b).2 = none := by
    intro n
    induction n with
    | zero =>
      intro b hb
      have : b = [] := by
        cases b with
        | nil => rfl
        | cons x xs => simp at hb
      subst this
      exact ⟨rfl, by simp [splitUtf8, decodeAux], rfl⟩
    | succ m ih =>
      intro b hb
      cases hd : decodeChar b with
      | none =>
        rw [splitUtf8_stop b hd]
        exact ⟨rfl, by simp, hd⟩
      | some cr =>
        obtain ⟨c, r⟩ := cr
        obtain ⟨henc, hval, hlen⟩ := decodeChar_sound b c r hd
        rw [splitUtf8_cons_valid b c r hd]
        obtain ⟨ih1, ih2, ih3⟩ := ih r (by omega)
        refine ⟨?_, ?_, ih3⟩
        · show encodeChar c ++ utf8Encode (splitUtf8 r).1 ++ (splitUtf8 r).2 = b
          rw [List.append_assoc, ih1, henc]
        · intro x hx
          rcases List.mem_cons.mp hx with h | h
          · subst h; exact hval
          · exact ih2 x h
  exact main b.length b le_rfl

/-- Model of `OsStr::to_str` / `str::from_utf8` on a whole byte string:
`some` (with the decoded scalar values) exactly when the bytes are entirely
valid UTF-8. -/
def utf8ToStr (b : Bytes) : Option (List Nat) :=
  if (splitUtf8 b).2 = [] then some (splitUtf8 b).1 else none

theorem utf8ToStr_encode (s : List Nat) (hs : ∀ c ∈ s, isUSV c) :
    utf8ToStr (utf8Encode s) = some s := by
  have h : splitUtf8 (utf8Encode s) = (s, []) := by
    have := splitUtf8_append s [] hs decodeChar_nil
    simpa using this
  rw [utf8ToStr, h]
  simp

theorem utf8ToStr_some (b : Bytes) (s : List Nat) (h : utf8ToStr b = some s) :
    b = utf8Encode s ∧ ∀ c ∈ s, isUSV c := by
  rw [utf8ToStr] at h
  by_cases he : (splitUtf8 b).2 = []
  · rw [if_pos he] at h
    simp only [Option.some.injEq] at h
    obtain ⟨h1, h2, _⟩ := splitUtf8_sound b
    subst h
    rw [he] at h1
    simp only [List.append_nil] at h1
    exact ⟨h1.symm, h2⟩
  · rw [if_neg he] at h; cases h

/-- Model of `Utf8Error::valid_up_to`: the byte length of the longest
valid-text prefix, i.e. the offset of the first invalid encoding boundary. -/
def validUpTo (b : Bytes) : Nat := b.length - (splitUtf8 b).2.length

/-- Model of the free function `split_nonutf8_once` in `lexer.rs`:
`from_utf8` on the whole input, else split at `valid_up_to` and re-validate
the prefix. The inner `unwrap` is modelled by `Option.map`: a `none` result
would correspond to the `unwrap` panicking. -/
def split_nonutf8_once (b : Bytes) : Option (List Nat × Option Bytes) :=
  match utf8ToStr b with
  | some s => some (s, none)
  | none =>
    (utf8ToStr (b.take (validUpTo b))).map
      (fun s => (s, some (b.drop (validUpTo b))))

theorem take_validUpTo (b : Bytes) :
    b.take (validUpTo b) = utf8Encode (splitUtf8 b).1 ∧
    b.drop (validUpTo b) = (splitUtf8 b).2 := by
  obtain ⟨henc, -, -⟩ := splitUtf8_sound b
  set E := utf8Encode (splitUtf8 b).1 with hE
  set R := (splitUtf8 b).2 with hR
  have hlb : E.length + R.length = b.length := by
    rw [← henc]; simp
  have hvu : validUpTo b = E.length := by
    rw [validUpTo, ← hR]; omega
  rw [hvu]
  constructor
  · conv_lhs => rw [← henc]
    exact List.take_left E R
  · conv_lhs => rw [← henc]
    exact List.drop_left E R

/-- Characterization of `split_nonutf8_once`: it always succeeds (the
modelled `unwrap` never fires) and returns the greedy valid/invalid split. -/
theorem split_nonutf8_once_eq (b : Bytes) :
    split_nonutf8_once b =
      some ((splitUtf8 b).1,
        if (splitUtf8 b).2 = [] then none else some (splitUtf8 b).2) := by
  obtain ⟨henc, hval, _⟩ := splitUtf8_sound b
  obtain ⟨htake, hdrop⟩ := take_validUpTo b
  rw [split_nonutf8_once]
  by_cases he : (splitUtf8 b).2 = []
  · rw [show utf8ToStr b = some (splitUtf8 b).1 by rw [utf8ToStr, if_pos he]]
    rw [if_pos he]
  · rw [show utf8ToStr b = none by rw [utf8ToStr, if_neg he]]
    rw [htake, hdrop, utf8ToStr_encode _ hval]
    rw [if_neg he]
    rfl

/-- Model of `ParsedArg`: the raw bytes plus the eagerly computed optional
text view (`OsStr::to_str`). -/
structure ParsedArg where
  inner : Bytes
  utf8 : Option (List Nat)
  deriving Repr, DecidableEq

/-- Model of `ParsedArg::new`. -/
def ParsedArg.new (b : Bytes) : ParsedArg :=
  { inner := b, utf8 := utf8ToStr b }

/-- Model of `ParsedArg::to_value_os`. -/
def ParsedArg.to_value_os (a : ParsedArg) : Bytes := a.inner

/-- Model of `ParsedArg::to_value`. -/
def ParsedArg.to_value (a : ParsedArg) : Option (List Nat) := a.utf8

/-- Model of `ParsedArg::is_stdio`: the raw value is exactly a dash. -/
def ParsedArg.is_stdio (a : ParsedArg) : Bool := a.inner = [0x2D]

/-- Model of `ParsedArg::is_escape`: the raw value is exactly a double dash. -/
def ParsedArg.is_escape (a : ParsedArg) : Bool := a.inner = [0x2D, 0x2D]

/-- Model of `RawOsStr::split_once`: split at the first occurrence of the
byte `sep`, returning the parts before and after it. -/
def splitOnce (sep : Nat) : Bytes → Option (Bytes × Bytes)
  | [] => none
  | b :: rest =>
    if b = sep then some ([], rest)
    else
      match splitOnce sep rest with
      | some (p, q) => some (b :: p, q)
      | none => none

theorem splitOnce_some (sep : Nat) : ∀ (l p q : Bytes),
    splitOnce sep l = some (p, q) → p ++ sep :: q = l ∧ sep ∉ p := by
  intro l
  induction l with
  | nil => intro p q h; cases h
  | cons b rest ih =>
    intro p q h
    rw [splitOnce] at h
    by_cases hb : b = sep
    · rw [if_pos hb] at h
      simp only [Option.some.injEq, Prod.mk.injEq] at h
      obtain ⟨rfl, rfl⟩ := h
      subst hb
      exact ⟨rfl, by simp⟩
    · rw [if_neg hb] at h
      cases hrec : splitOnce sep rest with
      | none => rw [hrec] at h; cases h
      | some pq =>
        obtain ⟨p', q'⟩ := pq
        rw [hrec] at h
        simp only [Option.some.injEq, Prod.mk.injEq] at h
        obtain ⟨rfl, rfl⟩ := h
        obtain ⟨h1, h2⟩ := ih p' q' hrec
        refine ⟨by rw [← h1]; rfl, ?_⟩
        intro hmem
        rcases List.mem_cons.mp hmem with h | h
        · exact hb h.symm
        · exact h2 h

theorem splitOnce_none (sep : Nat) : ∀ (l : Bytes),
    splitOnce sep l = none → sep ∉ l := by
  intro l
  induction l with
  | nil => intro _ hmem; cases hmem
  | cons b rest ih =>
    intro h hmem
    rw [splitOnce] at h
    by_cases hb : b = sep
    · rw [if_pos hb] at h; cases h
    · rw [if_neg hb] at h
      cases hrec : splitOnce sep rest with
      | none =>
        rcases List.mem_cons.mp hmem with hx | hx
        · exact hb hx.symm
        · exact ih hrec hx
      | some pq => obtain ⟨p', q'⟩ := pq; rw [hrec] at h; cases h

/-- Model of `ParsedArg::to_long`: strip the `--` byte prefix, then split the
remainder at the first `=` byte. -/
def ParsedArg.to_long (a : ParsedArg) : Option (Bytes × Option Bytes) :=
  if a.inner.take 2 = [0x2D, 0x2D] then
    match splitOnce 0x3D (a.inner.drop 2) with
    | some (p0, p1) => some (p0, some p1)
    | none => some (a.inner.drop 2, none)
  else none

/-- Model of `ParsedArg::is_long`. -/
def ParsedArg.is_long (a : ParsedArg) : Bool := a.inner.take 2 = [0x2D, 0x2D]

/-- Model of `ShortFlags`: the raw cluster bytes after the leading dash, the
unconsumed scalar values of the valid-text prefix together with the byte
offset of the next unconsumed position inside `inner` (Rust keeps both in one
`CharIndices`), and the pending invalid-encoding tail. -/
structure ShortFlags where
  inner : Bytes
  offset : Nat
  utf8Pre : List Nat
  invalid_suffix : Option Bytes
  deriving Repr, DecidableEq

/-- Model of `ShortFlags::new`: take the given validated text, else split the
raw bytes at the first invalid boundary. The `none` fallback arm is dead
code: `split_nonutf8_once` always returns `some` (proved below). -/
def ShortFlags.new (inner : Bytes) (utf8 : Option (List Nat)) : ShortFlags :=
  match utf8 with
  | some s => ⟨inner, 0, s, none⟩
  | none =>
    match split_nonutf8_once inner with
    | some (p, su) => ⟨inner, 0, p, su⟩
    | none => ⟨inner, 0, [], none⟩

/-- Model of `ShortFlags::next`: one decoded character from the text prefix,
or — once — the whole invalid tail, or nothing; paired with the state after
the call. `Sum.inl` is Rust's `Ok(char)`, `Sum.inr` its `Err(&RawOsStr)`. -/
def ShortFlags.next (f : ShortFlags) : Option (Nat ⊕ Bytes) × ShortFlags :=
  match f.utf8Pre with
  | c :: rest =>
    (some (Sum.inl c),
      { f with utf8Pre := rest, offset := f.offset + (encodeChar c).length })
  | [] =>
    match f.invalid_suffix with
    | some s => (some (Sum.inr s), { f with invalid_suffix := none })
    | none => (none, f)

/-- Model of `ShortFlags::is_empty`. -/
def ShortFlags.is_empty (f : ShortFlags) : Bool :=
  f.invalid_suffix.isNone && f.utf8Pre.isEmpty

/-- Model of `ShortFlags::value_os`: the rest of the cluster from the current
position as one raw slice, marking the iterator exhausted. -/
def ShortFlags.value_os (f : ShortFlags) : Option Bytes × ShortFlags :=
  match f.utf8Pre with
  | _ :: _ =>
    (some (f.inner.drop f.offset), { f with utf8Pre := [], invalid_suffix := none })
  | [] =>
    match f.invalid_suffix with
    | some s => (some s, { f with invalid_suffix := none })
    | none => (none, f)

/-- Loop body of `ShortFlags::advance_by`: `i` is the number of characters
already advanced, `k` the number still requested. -/
def ShortFlags.advanceAux (f : ShortFlags) (i : Nat) : Nat → Except Nat Unit × ShortFlags
  | 0 => (Except.ok (), f)
  | k + 1 =>
    match f.next with
    | (some (Sum.inl _), f') => advanceAux f' (i + 1) k
    | (some (Sum.inr _), f') => (Except.error i, f')
    | (none, f') => (Except.error i, f')

/-- Model of `ShortFlags::advance_by`. -/
def ShortFlags.advance_by (f : ShortFlags) (n : Nat) : Except Nat Unit × ShortFlags :=
  ShortFlags.advanceAux f 0 n

/-- Byte slice `&s[1..]` of a string, given as its scalar values: defined
(returning the remaining characters) exactly when byte position 1 exists and
is a character boundary, i.e. when the first character is one byte long;
`none` models the slicing panic. -/
def byteSlice1 : List Nat → Option (List Nat)
  | [] => none
  | c :: rest => if c < 0x80 then some rest else none

/-- Model of `ParsedArg::to_short`: strip one leading dash byte; reject a
second dash; build the decomposer from the raw remainder and (when the whole
argument is valid text) the text remainder `&s[1..]`. `byteSlice1` stands
for that byte slice; the slice panic cannot occur on constructed arguments
(proved below), so feeding its failure back as `none` is conservative. -/
def ParsedArg.to_short (a : ParsedArg) : Option ShortFlags :=
  if a.inner.take 1 = [0x2D] then
    if (a.inner.drop 1).take 1 = [0x2D] then none
    else some (ShortFlags.new (a.inner.drop 1) (a.utf8.bind byteSlice1))
  else none

/-- Model of `ParsedArg::is_short`. -/
def ParsedArg.is_short (a : ParsedArg) : Bool :=
  a.inner.take 1 = [0x2D] && !(a.inner.take 2 = [0x2D, 0x2D])

/-- The condition under which the byte slice `&s[1..]` inside
`ParsedArg::to_short` would panic: the argument is short-flag shaped, has a
text view, and byte position 1 is past the end or not a character boundary. -/
def toShortPanics (a : ParsedArg) : Prop :=
  a.inner.take 1 = [0x2D] ∧ (a.inner.drop 1).take 1 ≠ [0x2D] ∧
    ∃ s, a.utf8 = some s ∧ byteSlice1 s = none

/-- Largest `usize` value on a 64-bit target. -/
def usizeMax : Nat := 2 ^ 64 - 1

/-- Model of `RawArgs`: the owned ordered list of raw argument strings. -/
abbrev RawArgs := List Bytes

/-- Model of `RawArgs::cursor`; an `Nat` is modelled as a bare `Nat`
index. -/
def RawArgs.cursor : Nat := 0

/-- Model of `RawArgs::next_os`: the element at the cursor (if any) and the
new cursor after `saturating_add(1)` — saturation is at `usize::MAX`. -/
def RawArgs.next_os (items : RawArgs) (c : Nat) : Option Bytes × Nat :=
  (items[c]?, min (c + 1) usizeMax)

/-- Model of `RawArgs::peek_os`. -/
def RawArgs.peek_os (items : RawArgs) (c : Nat) : Option Bytes :=
  items[c]?

/-- Model of `RawArgs::next`. -/
def RawArgs.next (items : RawArgs) (c : Nat) :
    Option ParsedArg × Nat :=
  ((RawArgs.next_os items c).1.map ParsedArg.new, (RawArgs.next_os items c).2)

/-- Model of `RawArgs::peek`. -/
def RawArgs.peek (items : RawArgs) (c : Nat) : Option ParsedArg :=
  (RawArgs.peek_os items c).map ParsedArg.new

/-- Model of `RawArgs::remaining`: the slice `items[cursor..]` plus the new
cursor set to the length; `none` models the panic of the range indexing when
the cursor exceeds the length. -/
def RawArgs.remaining (items : RawArgs) (c : Nat) :
    Option (List Bytes × Nat) :=
  if c ≤ items.length then some (items.drop c, items.length) else none

/-- `i64::saturating_add` on mathematical integers restricted to the i64
range. -/
def satAddI64 (a b : Int) : Int := max (min (a + b) (2 ^ 63 - 1)) (-(2 ^ 63))

/-- The wrapping cast `usize as i64` on a 64-bit target. -/
def toI64 (n : Nat) : Int := if n < 2 ^ 63 then (n : Int) else (n : Int) - 2 ^ 64

/-- Model of `std::io::SeekFrom` as used by `RawArgs::seek`. -/
inductive SeekFrom where
  | start : Nat → SeekFrom
  | fromEnd : Int → SeekFrom
  | current : Int → SeekFrom
  deriving Repr, DecidableEq

/-- Model of `RawArgs::seek`: compute the target (with `i64` saturating
addition and the `max(0)` / `as u64` steps of the source), then clamp to the
length. -/
def RawArgs.seek (items : RawArgs) (c : Nat) (pos : SeekFrom) : Nat :=
  let p : Nat :=
    match pos with
    | .start p => p
    | .fromEnd off => (max (satAddI64 (toI64 items.length) off) 0).toNat
    | .current off => (max (satAddI64 (toI64 c) off) 0).toNat
  min p items.length

/-- Model of `RawArgs::insert`: `splice(cursor..cursor, new_items)`. -/
def RawArgs.insert (items : RawArgs) (c : Nat) (xs : List Bytes) : RawArgs :=
  items.take c ++ xs ++ items.drop c

/-- One cursor-facing operation of the Raw Argument Sequence, for stating
trace invariants. -/
inductive Op where
  | next : Op
  | peek : Op
  | remaining : Op
  | seek : SeekFrom → Op
  | insert : List Bytes → Op

/-- Apply one operation to a sequence/cursor pair. The `remaining` panic case
(cursor past the length) is modelled as leaving the state unchanged; it is
unreachable in the guarded traces considered below. -/
def applyOp : RawArgs × Nat → Op → RawArgs × Nat
  | (items, c), .next => (items, (RawArgs.next_os items c).2)
  | (items, c), .peek => (items, c)
  | (items, c), .remaining =>
    match RawArgs.remaining items c with
    | some (_, c') => (items, c')
    | none => (items, c)
  | (items, c), .seek pos => (items, RawArgs.seek items c pos)
  | (items, c), .insert xs => (RawArgs.insert items c xs, c)

/-- Run a list of operations from a starting state. -/
def runOps (s : RawArgs × Nat) (ops : List Op) : RawArgs × Nat :=
  ops.foldl applyOp s

/-- The guard of one operation: `next` requires an element at the cursor. -/
def opGuard : RawArgs × Nat → Op → Bool
  | s, .next => decide (s.2 < s.1.length)
  | _, _ => true

/-- A trace is guarded when `next`/`next_os` is only invoked while an element
remains at the cursor. -/
def guarded : RawArgs × Nat → List Op → Bool
  | _, [] => true
  | s, op :: ops => opGuard s op && guarded (applyOp s op) ops

theorem applyOp_inv (items : RawArgs) (c : Nat) (op : Op)
    (h : c ≤ items.length) (hg : op = Op.next → c < items.length) :
    (applyOp (items, c) op).2 ≤ (applyOp (items, c) op).1.length := by
  cases op with
  | next =>
    have h2 := hg rfl
    show min (c + 1) usizeMax ≤ items.length
    simp only [usizeMax]
    omega
  | peek => exact h
  | remaining =>
    simp only [applyOp, RawArgs.remaining, if_pos h]
    exact le_rfl
  | seek pos => exact Nat.min_le_right _ _
  | insert xs =>
    show c ≤ (RawArgs.insert items c xs).length
    simp only [RawArgs.insert, List.length_append, List.length_take,
      List.length_drop]
    omega

/-- Claim C1 (amended): in any trace of the operations in which `next` /
`next_os` is only invoked while the cursor is strictly below the length, the
cursor index never exceeds the sequence length; and `next`/`next_os` advance
the cursor by exactly one, saturating at `usize::MAX` (not at the length). -/
theorem cursor_le_length_of_guarded :
    (∀ (ops : List Op) (items : RawArgs) (c : Nat),
      c ≤ items.length → guarded (items, c) ops = true →
      (runOps (items, c) ops).2 ≤ (runOps (items, c) ops).1.length) ∧
    (∀ (items : RawArgs) (c : Nat), c < usizeMax →
      (RawArgs.next_os items c).2 = c + 1) := by
  constructor
  · intro ops
    induction ops with
    | nil => intro items c h _; exact h
    | cons op ops ih =>
      intro items c h hg
      rw [guarded, Bool.and_eq_true] at hg
      obtain ⟨hg1, hg2⟩ := hg
      have hnext : op = Op.next → c < items.length := by
        intro hop; subst hop
        simpa [opGuard] using hg1
      have hstep := applyOp_inv items c op h hnext
      have hrun : runOps (items, c) (op :: ops) = runOps (applyOp (items, c) op) ops := rfl
      rw [hrun]
      have hres := ih (applyOp (items, c) op).1 (applyOp (items, c) op).2 hstep
        (by simpa using hg2)
      simpa using hres
  · intro items c h
    show min (c + 1) usizeMax = c + 1
    simp only [usizeMax] at h ⊢
    omega

/-- Claim C1 (counterexample): from a fresh cursor on the empty sequence, a
single `next_os` call leaves the cursor at 1, exceeding the length 0 — the
code saturates at `usize::MAX`, not at the sequence length. -/
theorem cursor_past_length_cex :
    ¬ ((runOps (([] : RawArgs), RawArgs.cursor) [Op.next]).2 ≤
      (runOps (([] : RawArgs), RawArgs.cursor) [Op.next]).1.length) := by
  decide

theorem cursor_le_length_of_guarded_witness :
    ((0 : Nat) ≤ ([[0x61]] : RawArgs).length ∧
      guarded ([[0x61]], 0)
        [Op.next, Op.seek (SeekFrom.fromEnd (-1)), Op.insert [[0x62]],
          Op.remaining, Op.peek] = true) ∧
    (runOps ([[0x61]], 0)
      [Op.next, Op.seek (SeekFrom.fromEnd (-1)), Op.insert [[0x62]],
        Op.remaining, Op.peek]).2 ≤
      (runOps ([[0x61]], 0)
        [Op.next, Op.seek (SeekFrom.fromEnd (-1)), Op.insert [[0x62]],
          Op.remaining, Op.peek]).1.length ∧
    (RawArgs.next_os [[0x61]] 5).2 = 5 + 1 := by
  refine ⟨⟨by decide, by decide⟩, ?_, ?_⟩
  · exact cursor_le_length_of_guarded.1 _ [[0x61]] 0 (by decide) (by decide)
  · exact cursor_le_length_of_guarded.2 [[0x61]] 5 (by decide)

/-- Claim C4: `seek` never fails and computes exactly the target clamped
into `[0, length]`: absolute targets and end- or current-relative targets below
0 clamp to 0, targets beyond the length clamp to the length, and
`seek(End(0))` lands exactly at the length. -/
theorem seek_clamps (items : RawArgs) (c : Nat)
    (hL : items.length < 2 ^ 63) (hc : c < 2 ^ 63) :
    (∀ pos : SeekFrom, RawArgs.seek items c pos ≤ items.length) ∧
    RawArgs.seek items c (SeekFrom.fromEnd 0) = items.length ∧
    (∀ p : Nat, RawArgs.seek items c (SeekFrom.start p) = min p items.length) ∧
    (∀ off : Int, RawArgs.seek items c (SeekFrom.fromEnd off) =
      min (max ((items.length : Int) + off) 0).toNat items.length) ∧
    (∀ off : Int, RawArgs.seek items c (SeekFrom.current off) =
      min (max ((c : Int) + off) 0).toNat items.length) := by
  refine ⟨?_, ?_, ?_, ?_, ?_⟩
  · intro pos
    cases pos <;> exact Nat.min_le_right _ _
  · show min (max (satAddI64 (toI64 items.length) 0) 0).toNat items.length =
      items.length
    rw [satAddI64, toI64, if_pos hL]
    omega
  · intro p
    rfl
  · intro off
    show min (max (satAddI64 (toI64 items.length) off) 0).toNat items.length = _
    rw [satAddI64, toI64, if_pos hL]
    omega
  · intro off
    show min (max (satAddI64 (toI64 c) off) 0).toNat items.length = _
    rw [satAddI64, toI64, if_pos hc]
    omega

theorem seek_clamps_witness :
    ([[0x61], [0x62]] : RawArgs).length < 2 ^ 63 ∧ (5 : Nat) < 2 ^ 63 ∧
    RawArgs.seek [[0x61], [0x62]] 5 (SeekFrom.fromEnd 0) = 2 ∧
    RawArgs.seek [[0x61], [0x62]] 5 (SeekFrom.current (-7)) = 0 ∧
    RawArgs.seek [[0x61], [0x62]] 5 (SeekFrom.start 99) = min 99 2 := by
  refine ⟨by decide, by decide, ?_, ?_, ?_⟩
  · exact (seek_clamps [[0x61], [0x62]] 5 (by decide) (by decide)).2.1
  · have h := (seek_clamps [[0x61], [0x62]] 5 (by decide) (by decide)).2.2.2.2 (-7)
    simpa using h
  · exact (seek_clamps [[0x61], [0x62]] 5 (by decide) (by decide)).2.2.1 99

/-- Claim C5: inserting `n` items at a cursor position `p ≤ length` grows the
sequence by exactly `n`, the inserted items occupy positions `p..p+n` in
order, elements before `p` are unchanged, and every element previously at
`i ≥ p` is found at `i + n`. -/
theorem insert_shifts (items : RawArgs) (c : Nat) (xs : List Bytes)
    (h : c ≤ items.length) :
    (RawArgs.insert items c xs).length = items.length + xs.length ∧
    (∀ i, i < xs.length → (RawArgs.insert items c xs)[c + i]? = xs[i]?) ∧
    (∀ i, i < c → (RawArgs.insert items c xs)[i]? = items[i]?) ∧
    (∀ i, c ≤ i → (RawArgs.insert items c xs)[i + xs.length]? = items[i]?) := by
  have htl : (items.take c).length = c := by
    rw [List.length_take]; omega
  have htxl : (items.take c ++ xs).length = c + xs.length := by
    rw [List.length_append, htl]
  refine ⟨?_, ?_, ?_, ?_⟩
  · simp only [RawArgs.insert, List.length_append, List.length_take,
      List.length_drop]
    omega
  · intro i hi
    rw [RawArgs.insert, List.getElem?_append_left (by omega),
      List.getElem?_append_right (by omega), htl,
      show c + i - c = i by omega]
  · intro i hi
    rw [RawArgs.insert, List.getElem?_append_left (by omega),
      List.getElem?_append_left (by omega), List.getElem?_take_of_lt hi]
  · intro i hi
    rw [RawArgs.insert, List.getElem?_append_right (by omega), htxl,
      show i + xs.length - (c + xs.length) = i - c by omega,
      List.getElem?_drop, show c + (i - c) = i by omega]

theorem insert_shifts_witness :
    (1 : Nat) ≤ ([[0x61], [0x62]] : RawArgs).length ∧
    (RawArgs.insert [[0x61], [0x62]] 1 [[0x63]]).length = 2 + 1 ∧
    (RawArgs.insert [[0x61], [0x62]] 1 [[0x63]])[1]? = some [0x63] ∧
    (RawArgs.insert [[0x61], [0x62]] 1 [[0x63]])[1 + 1]? = some [0x62] := by
  have h := insert_shifts [[0x61], [0x62]] 1 [[0x63]] (by decide)
  refine ⟨by decide, h.1, ?_, ?_⟩
  · have := h.2.1 0 (by decide)
    simpa using this
  · exact h.2.2.2 1 (by decide)

/-- Claim C10: for a cursor index at most the length, `remaining` yields
exactly the elements from that index through the last, in order, and sets the
cursor to the length; its internal range indexing is then in bounds. The
precondition is required: for an index greater than the length the range
indexing panics (modelled by `none`). -/
theorem remaining_spec (items : RawArgs) (c : Nat) :
    (c ≤ items.length →
      RawArgs.remaining items c = some (items.drop c, items.length) ∧
      (items.drop c).length = items.length - c ∧
      ∀ i : Nat, (items.drop c)[i]? = items[c + i]?) ∧
    (items.length < c → RawArgs.remaining items c = none) := by
  constructor
  · intro h
    refine ⟨by rw [RawArgs.remaining, if_pos h], by simp, ?_⟩
    intro i
    rw [List.getElem?_drop]
  · intro h
    rw [RawArgs.remaining, if_neg (by omega)]

theorem remaining_spec_witness :
    (1 : Nat) ≤ ([[0x61], [0x62]] : RawArgs).length ∧
    RawArgs.remaining [[0x61], [0x62]] 1 = some ([[0x62]], 2) ∧
    RawArgs.remaining [[0x61], [0x62]] 3 = none := by
  refine ⟨by decide, ?_, ?_⟩
  · have h := ((remaining_spec [[0x61], [0x62]] 1).1 (by decide)).1
    simpa using h
  · exact (remaining_spec [[0x61], [0x62]] 3).2 (by decide)

/-- Claim C3: constructing a Parsed Argument from the encoding of any
valid-text string returns exactly that string as its text view; and whenever
the text view is absent, the splitter finds a nonempty invalid-encoding
remainder in the raw argument. -/
theorem to_value_roundtrip :
    (∀ s : List Nat, (∀ c ∈ s, isUSV c) →
      (ParsedArg.new (utf8Encode s)).to_value = some s) ∧
    (∀ b : Bytes, (ParsedArg.new b).to_value = none →
      ∃ t r, split_nonutf8_once b = some (t, some r) ∧ r ≠ []) := by
  constructor
  · intro s hs
    show utf8ToStr (utf8Encode s) = some s
    exact utf8ToStr_encode s hs
  · intro b hb
    have hb' : utf8ToStr b = none := hb
    have hne : (splitUtf8 b).2 ≠ [] := by
      intro he
      rw [utf8ToStr, if_pos he] at hb'
      cases hb'
    refine ⟨(splitUtf8 b).1, (splitUtf8 b).2, ?_, hne⟩
    rw [split_nonutf8_once_eq b, if_neg hne]

theorem to_value_roundtrip_witness :
    (∀ c ∈ [0x61, 0x1F600], isUSV c) ∧
    (ParsedArg.new (utf8Encode [0x61, 0x1F600])).to_value = some [0x61, 0x1F600] := by
  refine ⟨by decide, ?_⟩
  exact to_value_roundtrip.1 [0x61, 0x1F600] (by decide)

/-- Claim C7: for a raw argument starting with the two-byte double dash,
`to_long` strips it and splits the remainder at the first `=` into the name
(possibly empty, never containing `=`) and the optional inline value; for any
other raw argument it returns nothing. -/
theorem to_long_spec (b : Bytes) :
    (b.take 2 = [0x2D, 0x2D] →
      ∃ name val, (ParsedArg.new b).to_long = some (name, val) ∧
        0x3D ∉ name ∧
        Option.elim val (name = b.drop 2)
          (fun v => name ++ 0x3D :: v = b.drop 2)) ∧
    (b.take 2 ≠ [0x2D, 0x2D] → (ParsedArg.new b).to_long = none) := by
  have hinner : (ParsedArg.new b).inner = b := rfl
  constructor
  · intro h
    rw [ParsedArg.to_long, hinner, if_pos h]
    cases hsp : splitOnce 0x3D (b.drop 2) with
    | none =>
      exact ⟨b.drop 2, none, rfl, splitOnce_none 0x3D _ hsp, rfl⟩
    | some pq =>
      obtain ⟨p, q⟩ := pq
      obtain ⟨h1, h2⟩ := splitOnce_some 0x3D (b.drop 2) p q hsp
      exact ⟨p, some q, rfl, h2, h1⟩
  · intro h
    rw [ParsedArg.to_long, hinner, if_neg h]

theorem to_long_spec_witness :
    (([0x2D, 0x2D, 0x61, 0x3D, 0x62] : Bytes).take 2 = [0x2D, 0x2D] ∧
      ∃ name val,
        (ParsedArg.new [0x2D, 0x2D, 0x61, 0x3D, 0x62]).to_long = some (name, val) ∧
        0x3D ∉ name ∧
        Option.elim val (name = ([0x2D, 0x2D, 0x61, 0x3D, 0x62] : Bytes).drop 2)
          (fun v => name ++ 0x3D :: v = ([0x2D, 0x2D, 0x61, 0x3D, 0x62] : Bytes).drop 2)) ∧
    (ParsedArg.new [0x61]).to_long = none := by
  refine ⟨⟨by decide, ?_⟩, ?_⟩
  · exact (to_long_spec [0x2D, 0x2D, 0x61, 0x3D, 0x62]).1 (by decide)
  · exact (to_long_spec [0x61]).2 (by decide)

theorem encodeChar_head_ge (c : Nat) (h : ¬ c < 0x80) :
    ∃ h0 t, encodeChar c = h0 :: t ∧ 0xC0 ≤ h0 := by
  rw [encodeChar, if_neg h]
  by_cases hb : c < 0x800
  · rw [if_pos hb]; exact ⟨_, _, rfl, by omega⟩
  · rw [if_neg hb]
    by_cases hc : c < 0x10000
    · rw [if_pos hc]; exact ⟨_, _, rfl, by omega⟩
    · rw [if_neg hc]; exact ⟨_, _, rfl, by omega⟩

/-- Claim C9: no operation of this core panics on malformed input bytes: the
re-validation (`unwrap`) inside `split_nonutf8_once` always succeeds, and the
byte slice `&s[1..]` inside `to_short` is always at a character boundary, for
every input byte string. Invalid encoding is returned as a value, never
signalled as an error. -/
theorem no_panic_on_malformed (b : Bytes) :
    (split_nonutf8_once b).isSome = true ∧ ¬ toShortPanics (ParsedArg.new b) := by
  constructor
  · rw [split_nonutf8_once_eq b]; rfl
  · rintro ⟨h1, h2, s, hs, hsl⟩
    have hs' : utf8ToStr b = some s := hs
    obtain ⟨heq, hval⟩ := utf8ToStr_some b s hs'
    cases s with
    | nil =>
      rw [show b = ([] : Bytes) from heq] at h1
      cases h1
    | cons c rest =>
      by_cases hc : c < 0x80
      · rw [byteSlice1, if_pos hc] at hsl
        cases hsl
      · obtain ⟨h0, t, henc, hge⟩ := encodeChar_head_ge c hc
        rw [heq] at h1
        rw [show utf8Encode (c :: rest) = encodeChar c ++ utf8Encode rest from rfl,
          henc] at h1
        simp only [List.cons_append, List.take_succ_cons, List.take_zero] at h1
        have : h0 = 0x2D := by
          have := List.head_eq_of_cons_eq h1
          exact this
        omega

theorem no_panic_on_malformed_witness :
    (split_nonutf8_once [0x2D, 0xFF]).isSome = true ∧
    ¬ toShortPanics (ParsedArg.new [0x2D, 0xFF]) :=
  no_panic_on_malformed [0x2D, 0xFF]

theorem new_none_eq (b : Bytes) :
    ShortFlags.new b none =
      ⟨b, 0, (splitUtf8 b).1,
        if (splitUtf8 b).2 = [] then none else some (splitUtf8 b).2⟩ := by
  unfold ShortFlags.new
  rw [split_nonutf8_once_eq b]

/-- The decomposer state after `j` calls to `ShortFlags::next`. -/
def stateN : ShortFlags → Nat → ShortFlags
  | f, 0 => f
  | f, j + 1 => stateN (f.next).2 j

theorem stateN_add (a : Nat) : ∀ (f : ShortFlags) (b : Nat),
    stateN f (a + b) = stateN (stateN f a) b := by
  induction a with
  | zero => intro f b; rw [Nat.zero_add]; rfl
  | succ a ih =>
    intro f b
    have h1 : stateN f (a + b + 1) = stateN (f.next).2 (a + b) := rfl
    rw [show a + 1 + b = a + b + 1 by omega, h1, ih]
    rfl

theorem stateN_exhausted (inner : Bytes) (off : Nat) (j : Nat) :
    stateN ⟨inner, off, [], none⟩ j = ⟨inner, off, [], none⟩ := by
  induction j with
  | zero => rfl
  | succ j ih =>
    have h1 : stateN (⟨inner, off, [], none⟩ : ShortFlags) (j + 1) =
        stateN ((⟨inner, off, [], none⟩ : ShortFlags).next).2 j := rfl
    rw [h1]
    exact ih

theorem stateN_on_text (j : Nat) :
    ∀ (inner : Bytes) (off : Nat) (p : List Nat) (su : Option Bytes),
    j ≤ p.length →
    stateN ⟨inner, off, p, su⟩ j =
      ⟨inner, off + (utf8Encode (p.take j)).length, p.drop j, su⟩ := by
  induction j with
  | zero =>
    intro inner off p su _
    show (⟨inner, off, p, su⟩ : ShortFlags) = _
    rw [List.take_zero, List.drop_zero]
    rw [show utf8Encode [] = [] from rfl, List.length_nil, Nat.add_zero]
  | succ j ih =>
    intro inner off p su h
    cases p with
    | nil => simp at h
    | cons c p' =>
      have h1 : stateN (⟨inner, off, c :: p', su⟩ : ShortFlags) (j + 1) =
          stateN ⟨inner, off + (encodeChar c).length, p', su⟩ j := rfl
      rw [h1, ih inner (off + (encodeChar c).length) p' su (by simp at h; omega)]
      rw [List.take_succ_cons, List.drop_succ_cons]
      rw [show utf8Encode (c :: p'.take j) = encodeChar c ++ utf8Encode (p'.take j)
        from rfl]
      rw [List.length_append]
      rw [Nat.add_assoc]

/-- Claim C2: for a short-flag cluster whose raw bytes are a valid-text
prefix `t` followed by an (optional) invalid-encoding suffix `r`, iterating
`next` yields exactly the characters of `t` in order, then — iff `r` is
present — exactly one opaque unit equal to `r`, then nothing further; and for
a purely valid-text cluster, `is_empty` becomes true exactly when all
characters have been consumed. -/
theorem short_flags_decomposition (t : List Nat) (r : Bytes)
    (hval : ∀ c ∈ t, isUSV c) (hr : decodeChar r = none) :
    (∀ j (hj : j < t.length),
      ((stateN (ShortFlags.new (utf8Encode t ++ r) none) j).next).1 =
        some (Sum.inl t[j])) ∧
    (r ≠ [] →
      ((stateN (ShortFlags.new (utf8Encode t ++ r) none) t.length).next).1 =
        some (Sum.inr r)) ∧
    (∀ j, t.length + (if r = [] then 0 else 1) ≤ j →
      ((stateN (ShortFlags.new (utf8Encode t ++ r) none) j).next).1 = none) ∧
    (r = [] → ∀ j,
      ((stateN (ShortFlags.new (utf8Encode t ++ r) none) j).is_empty = true ↔
        t.length ≤ j)) := by
  have hsplit : splitUtf8 (utf8Encode t ++ r) = (t, r) :=
    splitUtf8_append t r hval hr
  have hf0 : ShortFlags.new (utf8Encode t ++ r) none =
      ⟨utf8Encode t ++ r, 0, t, if r = [] then none else some r⟩ := by
    rw [new_none_eq, hsplit]
  refine ⟨?_, ?_, ?_, ?_⟩
  · intro j hj
    rw [hf0, stateN_on_text j _ 0 t _ (Nat.le_of_lt hj)]
    rw [List.drop_eq_getElem_cons hj]
    rfl
  · intro hrne
    rw [hf0, if_neg hrne, stateN_on_text t.length _ 0 t _ le_rfl]
    rw [List.drop_length]
    rfl
  · intro j hjge
    by_cases hre : r = []
    · rw [if_pos hre] at hjge
      rw [hf0, if_pos hre]
      rw [show j = t.length + (j - t.length) by omega, stateN_add]
      rw [stateN_on_text t.length _ 0 t _ le_rfl, List.drop_length]
      rw [stateN_exhausted]
      rfl
    · rw [if_neg hre] at hjge
      rw [hf0, if_neg hre]
      rw [show j = (t.length + 1) + (j - (t.length + 1)) by omega, stateN_add]
      rw [stateN_add t.length _ 1]
      rw [stateN_on_text t.length _ 0 t _ le_rfl, List.drop_length]
      rw [show stateN (⟨utf8Encode t ++ r, 0 + (utf8Encode (t.take t.length)).length,
        [], some r⟩ : ShortFlags) 1 =
        ⟨utf8Encode t ++ r, 0 + (utf8Encode (t.take t.length)).length, [], none⟩
        from rfl]
      rw [stateN_exhausted]
      rfl
  · intro hre j
    rw [hf0, if_pos hre]
    by_cases hj : j ≤ t.length
    · rw [stateN_on_text j _ 0 t _ hj]
      show ((none : Option Bytes).isNone && (t.drop j).isEmpty) = true ↔ _
      rw [Option.isNone_none, Bool.true_and, List.isEmpty_iff,
        List.drop_eq_nil_iff]
    · rw [show j = t.length + (j - t.length) by omega, stateN_add]
      rw [stateN_on_text t.length _ 0 t _ le_rfl, List.drop_length]
      rw [stateN_exhausted]
      constructor
      · intro _; omega
      · intro _; rfl

theorem short_flags_decomposition_witness :
    ((∀ c ∈ [0x61], isUSV c) ∧ decodeChar [0xFF] = none) ∧
    ((stateN (ShortFlags.new (utf8Encode [0x61] ++ [0xFF]) none) 0).next).1 =
      some (Sum.inl 0x61) ∧
    ((stateN (ShortFlags.new (utf8Encode [0x61] ++ [0xFF]) none) 1).next).1 =
      some (Sum.inr [0xFF]) ∧
    ((stateN (ShortFlags.new (utf8Encode [0x61] ++ [0xFF]) none) 2).next).1 =
      none ∧
    ((stateN (ShortFlags.new (utf8Encode [0x61] ++ ([] : Bytes)) none) 0).is_empty
      = true ↔ (1 : Nat) ≤ 0) := by
  have h1 := short_flags_decomposition [0x61] [0xFF] (by decide) (by decide)
  have h2 := short_flags_decomposition [0x61] [] (by decide) (by decide)
  refine ⟨⟨by decide, by decide⟩, ?_, ?_, ?_, ?_⟩
  · exact h1.1 0 (by decide)
  · exact h1.2.1 (by decide)
  · exact h1.2.2.1 2 (by decide)
  · exact h2.2.2.2 rfl 0

theorem advanceAux_spec (k : Nat) :
    ∀ (i : Nat) (inner : Bytes) (off : Nat) (p : List Nat) (su : Option Bytes),
    (ShortFlags.advanceAux ⟨inner, off, p, su⟩ i k).1 =
      (if k ≤ p.length then Except.ok () else Except.error (i + p.length)) ∧
    (ShortFlags.advanceAux ⟨inner, off, p, su⟩ i k).2 =
      (if k ≤ p.length then
        (⟨inner, off + (utf8Encode (p.take k)).length, p.drop k, su⟩ : ShortFlags)
      else ⟨inner, off + (utf8Encode p).length, [], none⟩) := by
  induction k with
  | zero =>
    intro i inner off p su
    rw [if_pos (Nat.zero_le _), if_pos (Nat.zero_le _)]
    refine ⟨rfl, ?_⟩
    show (⟨inner, off, p, su⟩ : ShortFlags) = _
    rw [List.take_zero, List.drop_zero,
      show utf8Encode [] = [] from rfl, List.length_nil, Nat.add_zero]
  | succ k ih =>
    intro i inner off p su
    cases p with
    | nil =>
      rw [if_neg (by simp), if_neg (by simp)]
      cases su with
      | none =>
        refine ⟨rfl, ?_⟩
        show (⟨inner, off, [], none⟩ : ShortFlags) = _
        rw [show utf8Encode [] = [] from rfl, List.length_nil, Nat.add_zero]
      | some s =>
        refine ⟨rfl, ?_⟩
        show (⟨inner, off, [], none⟩ : ShortFlags) = _
        rw [show utf8Encode [] = [] from rfl, List.length_nil, Nat.add_zero]
    | cons c p' =>
      have h1 : ShortFlags.advanceAux ⟨inner, off, c :: p', su⟩ i (k + 1) =
          ShortFlags.advanceAux ⟨inner, off + (encodeChar c).length, p', su⟩
            (i + 1) k := rfl
      rw [h1]
      obtain ⟨ih1, ih2⟩ := ih (i + 1) inner (off + (encodeChar c).length) p' su
      constructor
      · rw [ih1]
        by_cases hk : k ≤ p'.length
        · rw [if_pos hk, if_pos (by simp; omega)]
        · rw [if_neg hk, if_neg (by simp; omega)]
          rw [show i + 1 + p'.length = i + (c :: p').length by simp; omega]
      · rw [ih2]
        by_cases hk : k ≤ p'.length
        · rw [if_pos hk, if_pos (by simp; omega)]
          rw [List.take_succ_cons, List.drop_succ_cons]
          rw [show utf8Encode (c :: p'.take k) =
            encodeChar c ++ utf8Encode (p'.take k) from rfl]
          rw [List.length_append, Nat.add_assoc]
        · rw [if_neg hk, if_neg (by simp; omega)]
          rw [show utf8Encode (c :: p') = encodeChar c ++ utf8Encode p' from rfl]
          rw [List.length_append, Nat.add_assoc]

/-- Claim C6: `advance_by n` succeeds exactly when `n` characters of the
valid-text prefix are available (and then skips exactly those `n`); otherwise
it returns, as an ordinary value, the count of characters successfully
advanced — the whole prefix length, which is less than `n` — having stopped
because the prefix was exhausted (and, when an invalid-encoding unit was then
encountered, it is consumed rather than skipped as a flag). -/
theorem advance_by_spec (n : Nat) (inner : Bytes) (off : Nat) (p : List Nat)
    (su : Option Bytes) :
    (ShortFlags.advance_by ⟨inner, off, p, su⟩ n).1 =
      (if n ≤ p.length then Except.ok () else Except.error p.length) ∧
    (¬ n ≤ p.length → p.length < n) ∧
    (ShortFlags.advance_by ⟨inner, off, p, su⟩ n).2 =
      (if n ≤ p.length then
        (⟨inner, off + (utf8Encode (p.take n)).length, p.drop n, su⟩ : ShortFlags)
      else ⟨inner, off + (utf8Encode p).length, [], none⟩) := by
  obtain ⟨h1, h2⟩ := advanceAux_spec n 0 inner off p su
  refine ⟨?_, by omega, h2⟩
  rw [ShortFlags.advance_by, h1]
  rw [show 0 + p.length = p.length by omega]

theorem advance_by_spec_witness :
    (ShortFlags.advance_by ⟨[0x61, 0x62], 0, [0x61, 0x62], none⟩ 1).1 =
      Except.ok () ∧
    (ShortFlags.advance_by ⟨[0x61], 0, [0x61], some [0xFF]⟩ 2).1 =
      Except.error 1 := by
  have h1 := advance_by_spec 1 [0x61, 0x62] 0 [0x61, 0x62] none
  have h2 := advance_by_spec 2 [0x61] 0 [0x61] (some [0xFF])
  constructor
  · rw [h1.1, if_pos (by decide)]
  · rw [h2.1, if_neg (by decide)]
    rfl

/-- Whether a decomposer state is well-formed: the bytes of the cluster from
the current offset are exactly the encoding of the unconsumed text prefix
followed by the pending invalid tail. Every state reachable from
`ShortFlags::new` satisfies this. -/
def WF (f : ShortFlags) : Prop :=
  f.inner.drop f.offset = utf8Encode f.utf8Pre ++ (f.invalid_suffix.getD [])

/-- Claim C8: on a well-formed state, `value_os` returns everything from the
current unconsumed position to the end of the cluster as one raw slice — the
unconsumed valid-text characters followed by the invalid tail, which is just
the invalid tail when the text prefix is exhausted — or nothing when already
exhausted; after it returns the decomposer is exhausted (`next` and
`value_os` yield nothing further). -/
theorem value_os_spec (f : ShortFlags) (hWF : WF f) :
    ((f.value_os).1 =
      if f.is_empty then none else some (f.inner.drop f.offset)) ∧
    f.inner.drop f.offset = utf8Encode f.utf8Pre ++ (f.invalid_suffix.getD []) ∧
    ((f.value_os).2.is_empty = true) ∧
    (((f.value_os).2).next.1 = none) ∧
    (((f.value_os).2).value_os.1 = none) := by
  obtain ⟨inner, off, p, su⟩ := f
  cases p with
  | cons c p' =>
    refine ⟨?_, hWF, rfl, rfl, rfl⟩
    rw [if_neg (by simp [ShortFlags.is_empty])]
    rfl
  | nil =>
    cases su with
    | some s =>
      have hWF' : inner.drop off = s := by
        simpa [WF, utf8Encode] using hWF
      refine ⟨?_, hWF, rfl, rfl, rfl⟩
      rw [if_neg (by simp [ShortFlags.is_empty])]
      show some s = some (List.drop off inner)
      rw [hWF']
    | none => exact ⟨rfl, hWF, rfl, rfl, rfl⟩

theorem value_os_spec_witness :
    WF ⟨[0x61, 0xFF], 0, [0x61], some [0xFF]⟩ ∧
    ((⟨[0x61, 0xFF], 0, [0x61], some [0xFF]⟩ : ShortFlags).value_os).1 =
      some [0x61, 0xFF] ∧
    ((⟨[0x61, 0xFF], 0, [0x61], some [0xFF]⟩ : ShortFlags).value_os).2.is_empty
      = true := by
  have hwf : WF ⟨[0x61, 0xFF], 0, [0x61], some [0xFF]⟩ := by
    show [0x61, 0xFF] = utf8Encode [0x61] ++ [0xFF]
    rfl
  have h := value_os_spec ⟨[0x61, 0xFF], 0, [0x61], some [0xFF]⟩ hwf
  refine ⟨hwf, ?_, h.2.2.1⟩
  have h1 := h.1
  rw [if_neg (by decide)] at h1
  exact h1

end Clap
